import Mathlib

/-!
Verification of the Shor-algorithm demonstration notebook (N = 15, a = 7)
and of the classical period-extraction post-processing step specified for it.

The circuit-construction layer (gates emitted by `inverse_qft`,
`modular_multiplication` and `shors_algorithm`) is embedded from the
notebook source.  The classical post-processing step
(`extract_period_and_factor`) is not implemented in the source at all; it
is modelled from the specification text, as marked on each definition.
-/

/-- A gate-construction call recorded by the circuit builder.  Qubits are
global indices (control register first, then target register).  The `cu1`
angle is stored as a rational multiple of pi. -/
inductive Gate where
  | h (q : Nat)
  | x (q : Nat)
  | cu1 (lam : ℚ) (c t : Nat)
  | cx (c t : Nat)
  | ccx (c1 c2 t : Nat)
  | barrier
  | measure (q c : Nat)
deriving DecidableEq

/-- The qubit indices a gate-construction call touches (classical bit
indices of `measure` excluded). -/
def gateQubits : Gate → List Nat
  | Gate.h q => [q]
  | Gate.x q => [q]
  | Gate.cu1 _ c t => [c, t]
  | Gate.cx c t => [c, t]
  | Gate.ccx c1 c2 t => [c1, c2, t]
  | Gate.barrier => []
  | Gate.measure q _ => [q]

/-- Action of a gate on a computational-basis state, given as the bit held
by each qubit index.  `x`, `cx` and `ccx` are classical reversible maps and
`barrier` is the identity; `h`, `cu1` and `measure` do not map basis states
to basis states and are left as the identity here, which is sound because
the theorems below apply `applyGate` only to the gates emitted by
`modular_multiplication` (`cx`, `ccx`, `barrier`). -/
def applyGate : Gate → (Nat → Bool) → (Nat → Bool)
  | Gate.x t, s => fun q => if q = t then ! s t else s q
  | Gate.cx c t, s => fun q => if q = t then xor (s t) (s c) else s q
  | Gate.ccx c1 c2 t, s => fun q => if q = t then xor (s t) (s c1 && s c2) else s q
  | _, s => s

/-- Action of a gate list on a basis state, first gate applied first. -/
def applyGates (gs : List Gate) (s : Nat → Bool) : Nat → Bool :=
  gs.foldl (fun st g => applyGate g st) s

/-- Embedded from the source: the placeholder controlled
modular-multiplication gate.  For `N = 15` and `a = 7` it emits a CNOT and
a Toffoli on the target register; for every other pair it emits only a
barrier.  `control` is the control qubit index and `target i` the index of
target-register qubit `i`. -/
def modular_multiplication (control : Nat) (target : Nat → Nat) (a N : Nat) : List Gate :=
  if N = 15 ∧ a = 7 then
    [Gate.cx (target 1) (target 2), Gate.ccx (target 0) (target 2) (target 3)]
  else
    [Gate.barrier]

/-- Embedded from the source: the inverse quantum Fourier transform on the
first `n` qubits of register `qreg`. -/
def inverse_qft (qreg : Nat → Nat) (n : Nat) : List Gate :=
  ((List.range n).flatMap (fun i =>
    ((List.range i).map (fun j => Gate.cu1 (-(1 : ℚ) / 2 ^ (i - j)) (qreg i) (qreg j)))
      ++ [Gate.h (qreg i)]))
  ++ [Gate.barrier]

/-- Fuel-driven helper for `ceil_log2`; the fuel never runs out when it
starts at least as large as the argument. -/
def ceilLog2Aux : Nat → Nat → Nat
  | 0, _ => 0
  | fuel + 1, N => if N ≤ 1 then 0 else ceilLog2Aux fuel ((N + 1) / 2) + 1

/-- The value `ceil(log2 N)` computed by the source as
`math.ceil(math.log(N, 2))`: the least `k` with `N ≤ 2 ^ k`.  (The source
uses floating-point logarithms, which agree with this exact value at every
`N` the notebook ever passes, in particular `N = 15`.) -/
def ceil_log2 (N : Nat) : Nat := ceilLog2Aux N N

/-- Embedded from the source: the number of shots requested from the
backend. -/
def shots : Nat := 1024

/-- Embedded from the source: the controlled-modular-exponentiation
section of the circuit.  For each control qubit `j` the multiplier passed
to `modular_multiplication` is `pow(a, 2 ** j, N)`.  Control qubits are
`0 .. n - 1` and target-register qubit `i` is global qubit `n + i`, with
`n = 2 * ceil_log2 N`. -/
def modexpSection (N a : Nat) : List Gate :=
  (List.range (2 * ceil_log2 N)).flatMap (fun j =>
    modular_multiplication j (fun i => 2 * ceil_log2 N + i) (a ^ 2 ^ j % N) N)

/-- Embedded from the source: the full gate sequence built by
`shors_algorithm` when `gcd(a, N) = 1`: Hadamards on the control register,
`x` on target qubit 0, the modular-exponentiation loop, the inverse QFT on
the control register, and measurement of the control register. -/
def shorsCircuit (N a : Nat) : List Gate :=
  ((List.range (2 * ceil_log2 N)).map Gate.h)
  ++ [Gate.x (2 * ceil_log2 N)]
  ++ [Gate.barrier]
  ++ modexpSection N a
  ++ [Gate.barrier]
  ++ inverse_qft (fun i => i) (2 * ceil_log2 N)
  ++ [Gate.barrier]
  ++ ((List.range (2 * ceil_log2 N)).map (fun i => Gate.measure i i))

/-- Outcome of `shors_algorithm` before the opaque backend call: either
the early-return dictionary produced when `gcd(a, N) = 1` fails, or the
circuit handed to the backend. -/
inductive ShorsOutcome where
  | earlyFactor (result : List (String × Nat))
  | runCircuit (gates : List Gate)
deriving DecidableEq

/-- Embedded from the source: `shors_algorithm(N, a)` up to the opaque
backend execution.  When `gcd(a, N) != 1` it immediately returns the
dictionary with the single key `non-trivial factor: gcd(a, N)` mapped to
`shots`; otherwise it builds and runs the circuit. -/
def shors_algorithm (N a : Nat) : ShorsOutcome :=
  if Nat.gcd a N ≠ 1 then
    ShorsOutcome.earlyFactor [("non-trivial factor: " ++ toString (Nat.gcd a N), shots)]
  else
    ShorsOutcome.runCircuit (shorsCircuit N a)

/-- Embedded from the source: the measurement counts printed by the
demonstration run (`N = 15`, `a = 7`): every one of the 1024 shots
returned the all-zero 8-bit string. -/
def sample_run_counts : List (String × Nat) := [("00000000", 1024)]

/-- Modelled from the spec: the result type of the period-extraction core
(`FactorResult` in the data model): a non-trivial factor pair, the
`NoUsablePeriod` failure sentinel, or the `InvalidInput` signal for a
malformed input shape.  The source does not implement the core. -/
inductive FactorResult where
  | factors (f1 f2 : Nat)
  | noUsablePeriod
  | invalidInput
deriving DecidableEq

/-- Modelled from the spec: a measured bitstring interpreted as an
unsigned integer, most significant bit first. -/
def bitstringToNat (b : String) : Nat :=
  b.data.foldl (fun acc c => 2 * acc + (if c = '1' then 1 else 0)) 0

/-- Fuel-driven helper for `cfTerms`; the remainder passed down is
strictly below the divisor, so fuel at least the divisor never runs
out. -/
def cfTermsAux : Nat → Nat → Nat → List Nat
  | 0, _, _ => []
  | fuel + 1, p, q => if q = 0 then [] else (p / q) :: cfTermsAux fuel q (p % q)

/-- Modelled from the spec: the continued-fraction expansion of `p / q`
(the Euclidean quotient sequence). -/
def cfTerms (p q : Nat) : List Nat := cfTermsAux q p q

/-- Helper for `convergents`: standard convergent recurrence
`h i = a i * h (i-1) + h (i-2)` on numerators and denominators, seeded
with `(1, 0)` and `(0, 1)`. -/
def convergentsAux : List Nat → Nat × Nat → Nat × Nat → List (Nat × Nat)
  | [], _, _ => []
  | t :: rest, prev, prev2 =>
      let cur := (t * prev.1 + prev2.1, t * prev.2 + prev2.2)
      cur :: convergentsAux rest cur prev

/-- Modelled from the spec: the convergents (numerator, denominator) of a
continued-fraction term list. -/
def convergents (ts : List Nat) : List (Nat × Nat) := convergentsAux ts (1, 0) (0, 1)

/-- Modelled from the spec: the denominator of the best continued-fraction
convergent of `s / d` whose denominator is at most `N` (the last such
convergent; defaults to 1). -/
def bestDenominator (s d N : Nat) : Nat :=
  (convergents (cfTerms s d)).foldl (fun acc c => if c.2 ≤ N then c.2 else acc) 1

/-- Modelled from the spec: the ranking rule on `(bitstring, count)`
entries, descending count with ties broken by ascending integer value of
the bitstring. -/
def rankBefore (p q : String × Nat) : Bool :=
  decide (q.2 < p.2)
    || (decide (p.2 = q.2) && decide (bitstringToNat p.1 ≤ bitstringToNat q.1))

/-- Insert an entry into a list already ordered by `rankBefore`. -/
def insertRanked (x : String × Nat) : List (String × Nat) → List (String × Nat)
  | [] => [x]
  | y :: ys => if rankBefore x y then x :: y :: ys else y :: insertRanked x ys

/-- Insertion sort by `rankBefore`. -/
def sortRanked : List (String × Nat) → List (String × Nat)
  | [] => []
  | x :: xs => insertRanked x (sortRanked xs)

/-- Modelled from the spec: the distinct bitstrings with positive count,
ranked by descending count with ties broken by ascending integer value. -/
def rankedBitstrings (counts : List (String × Nat)) : List String :=
  (sortRanked (counts.filter (fun p => decide (0 < p.2)))).map (fun p => p.1)

/-- Modelled from the spec: the cap on the number of high-count candidates
examined before declaring failure (the spec suggests the top 10). -/
def candidateCap : Nat := 10

/-- Modelled from the spec: processing of a single ranked bitstring.
Reject the trivial phase 0; recover the candidate period `r` as the best
convergent denominator of `int(b) / 2 ^ n` bounded by `N`; discard odd
`r`; for even `r` put `x = a ^ (r / 2) mod N`, discard `x = N - 1`
(`x` congruent to `-1`), and accept `f1 = gcd(x - 1, N)` when
`1 < f1 < N`, returning `(r, f1, N / f1)`.  (The second gcd of step 4,
`gcd(x + 1, N)`, is subsumed: step 5 of the spec returns `(f1, N / f1)`.) -/
def tryCandidate (N a n : Nat) (b : String) : Option (Nat × Nat × Nat) :=
  let s := bitstringToNat b
  if s = 0 then none
  else
    let r := bestDenominator s (2 ^ n) N
    if r % 2 = 1 then none
    else
      let x := a ^ (r / 2) % N
      if x = N - 1 then none
      else
        let f1 := Nat.gcd (x - 1) N
        if 1 < f1 ∧ f1 < N then some (r, f1, N / f1) else none

/-- Modelled from the spec: the first usable `(period, f1, f2)` triple
among the capped, ranked candidate bitstrings. -/
def extract_candidates (counts : List (String × Nat)) (N a n : Nat) :
    Option (Nat × Nat × Nat) :=
  ((rankedBitstrings counts).take candidateCap).findSome? (tryCandidate N a n)

/-- Modelled from the spec: the period-extraction core
`extract_period_and_factor(counts, N, a, control_width)`.  A malformed
input shape (counts summing to zero; negative values cannot arise in the
`Nat` encoding) is rejected with `InvalidInput`; otherwise the first
usable candidate yields the factor pair and exhaustion yields
`NoUsablePeriod`. -/
def extract_period_and_factor (counts : List (String × Nat)) (N a n : Nat) : FactorResult :=
  if (counts.map (fun p => p.2)).sum = 0 then FactorResult.invalidInput
  else
    match extract_candidates counts N a n with
    | some (_, f1, f2) => FactorResult.factors f1 f2
    | none => FactorResult.noUsablePeriod

/-- Modelled from the spec: the `MeasurementCounts` invariant — every key
is a bitstring of length `n` (counts are non-negative by the `Nat`
encoding) and the counts sum to at most the requested shots. -/
def countsWellFormed (counts : List (String × Nat)) (n shotCount : Nat) : Prop :=
  (∀ p ∈ counts, p.1.length = n ∧ ∀ c ∈ p.1.data, c = '0' ∨ c = '1')
  ∧ (counts.map (fun p => p.2)).sum ≤ shotCount

theorem mem_insertRanked (x a : String × Nat) (l : List (String × Nat)) :
    a ∈ insertRanked x l ↔ a = x ∨ a ∈ l := by
  induction l with
  | nil => simp [insertRanked]
  | cons y ys ih =>
    by_cases h : rankBefore x y
    · simp [insertRanked, h]
    · simp only [insertRanked, h, Bool.false_eq_true, if_false, List.mem_cons, ih]
      tauto

theorem mem_sortRanked (a : String × Nat) (l : List (String × Nat)) :
    a ∈ sortRanked l ↔ a ∈ l := by
  induction l with
  | nil => simp [sortRanked]
  | cons y ys ih => simp [sortRanked, mem_insertRanked, ih]

theorem foldl_bits_allzero (l : List Char) (h : ∀ c ∈ l, c = '0') :
    l.foldl (fun acc c => 2 * acc + (if c = '1' then 1 else 0)) 0 = 0 := by
  induction l with
  | nil => rfl
  | cons c t ih =>
    have hc : c = '0' := h c (List.mem_cons_self c t)
    have ht : ∀ c ∈ t, c = '0' := fun c hct => h c (List.mem_cons_of_mem _ hct)
    simp only [List.foldl_cons, hc]
    simpa using ih ht

theorem bitstringToNat_allzero (b : String) (h : ∀ c ∈ b.data, c = '0') :
    bitstringToNat b = 0 :=
  foldl_bits_allzero b.data h

theorem tryCandidate_of_zero (N a n : Nat) (b : String) (h : bitstringToNat b = 0) :
    tryCandidate N a n b = none := by
  simp [tryCandidate, h]

theorem findSome?_eq_none_of {α β : Type} (f : α → Option β) (l : List α)
    (h : ∀ x ∈ l, f x = none) : l.findSome? f = none := by
  induction l with
  | nil => rfl
  | cons x t ih =>
    rw [List.findSome?_cons]
    rw [h x (List.mem_cons_self x t)]
    exact ih (fun y hy => h y (List.mem_cons_of_mem _ hy))

theorem exists_of_findSome?_some {α β : Type} {f : α → Option β} {l : List α} {b : β}
    (h : l.findSome? f = some b) : ∃ x ∈ l, f x = some b := by
  induction l with
  | nil => simp [List.findSome?] at h
  | cons x t ih =>
    cases hx : f x with
    | some c =>
      simp only [List.findSome?_cons, hx] at h
      exact ⟨x, List.mem_cons_self x t, by rw [hx, h]⟩
    | none =>
      simp only [List.findSome?_cons, hx] at h
      obtain ⟨y, hy, hfy⟩ := ih h
      exact ⟨y, List.mem_cons_of_mem _ hy, hfy⟩

theorem tryCandidate_some {N a n : Nat} {b : String} {r f1 f2 : Nat}
    (h : tryCandidate N a n b = some (r, f1, f2)) :
    r % 2 = 0 ∧ f1 ∣ N ∧ 1 < f1 ∧ f1 < N ∧ f2 = N / f1 := by
  simp only [tryCandidate] at h
  split at h
  · exact absurd h (by simp)
  · split at h
    · exact absurd h (by simp)
    · rename_i hodd
      split at h
      · exact absurd h (by simp)
      · split at h
        · rename_i hf
          simp only [Option.some_inj, Prod.mk.injEq] at h
          obtain ⟨hr, hf1, hf2⟩ := h
          subst hr; subst hf1; subst hf2
          refine ⟨?_, Nat.gcd_dvd_right _ _, hf.1, hf.2, rfl⟩
          rcases Nat.mod_two_eq_zero_or_one (bestDenominator (bitstringToNat b) (2 ^ n) N) with h0 | h1
          · exact h0
          · exact absurd h1 hodd
        · exact absurd h (by simp)

theorem extract_candidates_mem {counts : List (String × Nat)} {N a n : Nat}
    {v : Nat × Nat × Nat} (h : extract_candidates counts N a n = some v) :
    ∃ b, b ∈ rankedBitstrings counts ∧ tryCandidate N a n b = some v := by
  obtain ⟨b, hb, hf⟩ := exists_of_findSome?_some h
  exact ⟨b, List.take_subset _ _ hb, hf⟩

/-- C1: for N = 15, a = 7, control width 4 and counts 256 on each of
0000, 0100, 1000 and 1100, the extractor recovers r = 4 from bitstring
0100 via the continued-fraction step, computes x = 7 ^ 2 mod 15 = 4,
f1 = gcd(3, 15) = 3 and f2 = gcd(5, 15) = 5, and returns the factor pair
(3, 5). -/
theorem c1_concrete_scenario :
    tryCandidate 15 7 4 "0100" = some (4, 3, 5)
    ∧ bestDenominator (bitstringToNat "0100") (2 ^ 4) 15 = 4
    ∧ 7 ^ 2 % 15 = 4
    ∧ Nat.gcd 3 15 = 3
    ∧ Nat.gcd 5 15 = 5
    ∧ extract_period_and_factor
        [("0000", 256), ("0100", 256), ("1000", 256), ("1100", 256)] 15 7 4
      = FactorResult.factors 3 5 := by
  decide

/-- C2: the sample run of the source produced counts holding only the
all-zero bitstring, with count 1024, and on any counts whose only
positive-count bitstring is all-zero the extractor returns the
NoUsablePeriod failure result. -/
theorem c2_all_zero_counts_fail :
    (∀ p ∈ sample_run_counts, 0 < p.2 → ∀ c ∈ p.1.data, c = '0')
    ∧ (sample_run_counts.map (fun p => p.2)).sum = 1024
    ∧ ∀ (counts : List (String × Nat)) (N a n : Nat),
        (counts.map (fun p => p.2)).sum ≠ 0 →
        (∀ p ∈ counts, 0 < p.2 → ∀ c ∈ p.1.data, c = '0') →
        extract_period_and_factor counts N a n = FactorResult.noUsablePeriod := by
  refine ⟨by decide, by decide, ?_⟩
  intro counts N a n hsum hz
  have hnone : extract_candidates counts N a n = none := by
    unfold extract_candidates
    apply findSome?_eq_none_of
    intro b hb
    have hb' : b ∈ rankedBitstrings counts := List.take_subset _ _ hb
    unfold rankedBitstrings at hb'
    obtain ⟨p, hp, rfl⟩ := List.mem_map.mp hb'
    rw [mem_sortRanked] at hp
    obtain ⟨hpc, hppos⟩ := List.mem_filter.mp hp
    have hpos : 0 < p.2 := of_decide_eq_true hppos
    exact tryCandidate_of_zero _ _ _ _ (bitstringToNat_allzero _ (hz p hpc hpos))
  unfold extract_period_and_factor
  rw [if_neg hsum, hnone]

/-- Witness for C2 at the sample-run counts of the source. -/
theorem c2_all_zero_counts_fail_witness :
    extract_period_and_factor sample_run_counts 15 7 8 = FactorResult.noUsablePeriod :=
  c2_all_zero_counts_fail.2.2 sample_run_counts 15 7 8 (by decide) (by decide)

/-- C5: for every N at least 2 and every a with gcd(a, N) different from
1, shors_algorithm returns the early dictionary mapping the key
`non-trivial factor: gcd(a, N)` to shots, and no circuit is handed to the
backend. -/
theorem c5_early_return (N a : Nat) (hN : 2 ≤ N) (hg : Nat.gcd a N ≠ 1) :
    shors_algorithm N a
      = ShorsOutcome.earlyFactor [("non-trivial factor: " ++ toString (Nat.gcd a N), shots)]
    ∧ ∀ gs, shors_algorithm N a ≠ ShorsOutcome.runCircuit gs := by
  have h : shors_algorithm N a
      = ShorsOutcome.earlyFactor
          [("non-trivial factor: " ++ toString (Nat.gcd a N), shots)] := by
    unfold shors_algorithm
    rw [if_pos hg]
  refine ⟨h, fun gs hc => ?_⟩
  rw [h] at hc
  exact ShorsOutcome.noConfusion hc

/-- Witness for C5 at N = 15, a = 5. -/
theorem c5_early_return_witness :
    shors_algorithm 15 5
      = ShorsOutcome.earlyFactor
          [("non-trivial factor: " ++ toString (Nat.gcd 5 15), shots)]
    ∧ shors_algorithm 15 5 ≠ ShorsOutcome.runCircuit [] :=
  ⟨(c5_early_return 15 5 (by decide) (by decide)).1,
   (c5_early_return 15 5 (by decide) (by decide)).2 []⟩

/-- C6: whenever the extractor returns a success result on a valid input,
the returned pair multiplies to N and both entries are strictly between 1
and N. -/
theorem c6_success_factor_pair (counts : List (String × Nat)) (N a n f1 f2 : Nat)
    (hN : 2 ≤ N) (ha1 : 1 < a) (ha2 : a < N) (hg : Nat.gcd a N = 1)
    (h : extract_period_and_factor counts N a n = FactorResult.factors f1 f2) :
    f1 * f2 = N ∧ 1 < f1 ∧ f1 < N ∧ 1 < f2 ∧ f2 < N := by
  unfold extract_period_and_factor at h
  by_cases hs : (counts.map (fun p => p.2)).sum = 0
  · rw [if_pos hs] at h
    exact absurd h (by simp)
  · rw [if_neg hs] at h
    cases hc : extract_candidates counts N a n with
    | none =>
      rw [hc] at h
      exact absurd h (by simp)
    | some v =>
      obtain ⟨r, f1', f2'⟩ := v
      rw [hc] at h
      simp only [FactorResult.factors.injEq] at h
      obtain ⟨rfl, rfl⟩ := h
      obtain ⟨b, _, hb⟩ := extract_candidates_mem hc
      obtain ⟨_, hdvd, hf1, hf1N, rfl⟩ := tryCandidate_some hb
      have hmul : f1' * (N / f1') = N := Nat.mul_div_cancel' hdvd
      have hlt : N / f1' < N := Nat.div_lt_self (by omega) hf1
      generalize hk : N / f1' = k at hmul hlt ⊢
      refine ⟨hmul, hf1, hf1N, ?_, hlt⟩
      rcases Nat.lt_or_ge k 2 with h2 | h2
      · interval_cases k
        · rw [Nat.mul_zero] at hmul
          omega
        · rw [Nat.mul_one] at hmul
          omega
      · omega

/-- Witness for C6 at the concrete N = 15, a = 7 scenario. -/
theorem c6_success_factor_pair_witness :
    3 * 5 = 15 ∧ 1 < 3 ∧ 3 < 15 ∧ 1 < 5 ∧ 5 < 15 :=
  c6_success_factor_pair
    [("0000", 256), ("0100", 256), ("1000", 256), ("1100", 256)] 15 7 4 3 5
    (by decide) (by decide) (by decide) (by decide) (by decide)

/-- C7: the extractor never derives its returned factors from an odd
candidate period: any candidate triple it settles on has an even
period. -/
theorem c7_period_never_odd (counts : List (String × Nat)) (N a n r f1 f2 : Nat)
    (h : extract_candidates counts N a n = some (r, f1, f2)) : r % 2 = 0 := by
  obtain ⟨b, _, hb⟩ := extract_candidates_mem h
  exact (tryCandidate_some hb).1

/-- Witness for C7 at the concrete N = 15, a = 7 scenario, whose
candidate period is 4. -/
theorem c7_period_never_odd_witness : (4 : Nat) % 2 = 0 :=
  c7_period_never_odd
    [("0000", 256), ("0100", 256), ("1000", 256), ("1100", 256)] 15 7 4 4 3 5
    (by decide)

/-- C8: the extractor is deterministic and pure: two invocations with
identical counts, N, a and control width return identical results, and
the counts argument is left unchanged (the embedding is a pure function
of its arguments). -/
theorem c8_deterministic_pure (c1 c2 : List (String × Nat)) (N a n : Nat) (h : c1 = c2) :
    extract_period_and_factor c1 N a n = extract_period_and_factor c2 N a n ∧ c1 = c2 := by
  subst h
  exact ⟨rfl, rfl⟩

/-- Witness for C8 at the sample-run counts. -/
theorem c8_deterministic_pure_witness :
    extract_period_and_factor sample_run_counts 15 7 8
      = extract_period_and_factor sample_run_counts 15 7 8
    ∧ sample_run_counts = sample_run_counts :=
  c8_deterministic_pure sample_run_counts sample_run_counts 15 7 8 rfl

/-- C9: measurement counts are bitstrings of the control-register length
with counts summing to at most the requested shots; the demonstration run
(control width 2 * ceil_log2 15 = 8) sums to exactly the 1024 requested
shots. -/
theorem c9_sample_counts_wellformed :
    countsWellFormed sample_run_counts (2 * ceil_log2 15) shots
    ∧ (sample_run_counts.map (fun p => p.2)).sum = shots
    ∧ shots = 1024
    ∧ 2 * ceil_log2 15 = 8 := by
  unfold countsWellFormed
  exact ⟨⟨by decide, by decide⟩, by decide, by decide, by decide⟩

/-- C3: modular_multiplication emits circuit gates (a CNOT and a Toffoli)
if and only if N = 15 and a = 7; for every other pair it emits only a
barrier, so the transformation applied to the target register is the
identity. -/
theorem c3_hardcoded_placeholder (ctrl : Nat) (target : Nat → Nat) (a N : Nat) :
    ((∃ g ∈ modular_multiplication ctrl target a N, g ≠ Gate.barrier) ↔ N = 15 ∧ a = 7)
    ∧ (N = 15 ∧ a = 7 →
        modular_multiplication ctrl target a N
          = [Gate.cx (target 1) (target 2), Gate.ccx (target 0) (target 2) (target 3)])
    ∧ (¬(N = 15 ∧ a = 7) →
        modular_multiplication ctrl target a N = [Gate.barrier]
        ∧ ∀ s : Nat → Bool, applyGates (modular_multiplication ctrl target a N) s = s) := by
  by_cases h : N = 15 ∧ a = 7
  · refine ⟨?_, fun _ => ?_, fun hc => absurd h hc⟩
    · simp [modular_multiplication, h]
    · simp [modular_multiplication, h]
  · have hmm : modular_multiplication ctrl target a N = [Gate.barrier] := by
      simp [modular_multiplication, h]
    refine ⟨?_, fun hc => absurd hc h, fun _ => ⟨hmm, fun s => ?_⟩⟩
    · rw [hmm]
      simp [h]
    · rw [hmm]
      rfl

/-- Witness for C3 at the hard-coded pair (7, 15) and at (4, 15). -/
theorem c3_hardcoded_placeholder_witness :
    modular_multiplication 0 (fun i => 8 + i) 7 15
      = [Gate.cx 9 10, Gate.ccx 8 10 11]
    ∧ modular_multiplication 0 (fun i => 8 + i) 4 15 = [Gate.barrier] :=
  ⟨(c3_hardcoded_placeholder 0 (fun i => 8 + i) 7 15).2.1 ⟨rfl, rfl⟩,
   ((c3_hardcoded_placeholder 0 (fun i => 8 + i) 4 15).2.2 (by simp)).1⟩

/-- C4: modular_multiplication never conditions on its control argument:
every gate it emits touches only target-register qubits, the control
qubit keeps its value, and the resulting target-register state is
identical for control 0 and control 1 (any two input states agreeing away
from the control qubit lead to states agreeing away from the control
qubit). -/
theorem c4_control_ignored (ctrl : Nat) (target : Nat → Nat) (a N : Nat)
    (s s' : Nat → Bool)
    (hdisj : ∀ i, target i ≠ ctrl)
    (hagree : ∀ q, q ≠ ctrl → s q = s' q) :
    (∀ g ∈ modular_multiplication ctrl target a N, ∀ q ∈ gateQubits g,
        ∃ i, i < 4 ∧ q = target i)
    ∧ applyGates (modular_multiplication ctrl target a N) s ctrl = s ctrl
    ∧ ∀ q, q ≠ ctrl →
        applyGates (modular_multiplication ctrl target a N) s q
          = applyGates (modular_multiplication ctrl target a N) s' q := by
  by_cases h : N = 15 ∧ a = 7
  case neg =>
    have hmm : modular_multiplication ctrl target a N = [Gate.barrier] := by
      simp [modular_multiplication, h]
    rw [hmm]
    refine ⟨?_, rfl, fun q hq => hagree q hq⟩
    intro g hg q hq
    rw [List.mem_singleton] at hg
    subst hg
    simp [gateQubits] at hq
  case pos =>
    have hmm : modular_multiplication ctrl target a N
        = [Gate.cx (target 1) (target 2), Gate.ccx (target 0) (target 2) (target 3)] := by
      simp [modular_multiplication, h]
    rw [hmm]
    have keyCx : ∀ t t' : Nat → Bool, (∀ q, q ≠ ctrl → t q = t' q) → ∀ q, q ≠ ctrl →
        applyGate (Gate.cx (target 1) (target 2)) t q
          = applyGate (Gate.cx (target 1) (target 2)) t' q := by
      intro t t' hag q hq
      simp only [applyGate]
      by_cases hq2 : q = target 2
      · rw [if_pos hq2, if_pos hq2, hag (target 2) (hdisj 2), hag (target 1) (hdisj 1)]
      · rw [if_neg hq2, if_neg hq2]
        exact hag q hq
    have keyCcx : ∀ t t' : Nat → Bool, (∀ q, q ≠ ctrl → t q = t' q) → ∀ q, q ≠ ctrl →
        applyGate (Gate.ccx (target 0) (target 2) (target 3)) t q
          = applyGate (Gate.ccx (target 0) (target 2) (target 3)) t' q := by
      intro t t' hag q hq
      simp only [applyGate]
      by_cases hq3 : q = target 3
      · rw [if_pos hq3, if_pos hq3, hag (target 3) (hdisj 3), hag (target 0) (hdisj 0),
          hag (target 2) (hdisj 2)]
      · rw [if_neg hq3, if_neg hq3]
        exact hag q hq
    have ctrlCx : ∀ t : Nat → Bool,
        applyGate (Gate.cx (target 1) (target 2)) t ctrl = t ctrl := by
      intro t
      simp only [applyGate]
      rw [if_neg (fun he => hdisj 2 he.symm)]
    have ctrlCcx : ∀ t : Nat → Bool,
        applyGate (Gate.ccx (target 0) (target 2) (target 3)) t ctrl = t ctrl := by
      intro t
      simp only [applyGate]
      rw [if_neg (fun he => hdisj 3 he.symm)]
    refine ⟨?_, ?_, ?_⟩
    · intro g hg q hq
      rcases List.mem_cons.mp hg with hg1 | hg2
      · subst hg1
        simp only [gateQubits, List.mem_cons, List.not_mem_nil, or_false] at hq
        rcases hq with rfl | rfl
        · exact ⟨1, by omega, rfl⟩
        · exact ⟨2, by omega, rfl⟩
      · rw [List.mem_singleton] at hg2
        subst hg2
        simp only [gateQubits, List.mem_cons, List.not_mem_nil, or_false] at hq
        rcases hq with rfl | rfl | rfl
        · exact ⟨0, by omega, rfl⟩
        · exact ⟨2, by omega, rfl⟩
        · exact ⟨3, by omega, rfl⟩
    · show applyGate (Gate.ccx (target 0) (target 2) (target 3))
          (applyGate (Gate.cx (target 1) (target 2)) s) ctrl = s ctrl
      rw [ctrlCcx, ctrlCx]
    · intro q hq
      exact keyCcx _ _ (keyCx s s' hagree) q hq

/-- Witness for C4: control qubit 0, target qubits 8 to 11, with the
control bit 0 in one input state and 1 in the other. -/
theorem c4_control_ignored_witness :
    applyGates (modular_multiplication 0 (fun i => 8 + i) 7 15) (fun _ => false) 0 = false
    ∧ applyGates (modular_multiplication 0 (fun i => 8 + i) 7 15) (fun _ => false) 10
      = applyGates (modular_multiplication 0 (fun i => 8 + i) 7 15)
          (fun q => decide (q = 0)) 10 := by
  have h := c4_control_ignored 0 (fun i => 8 + i) 7 15 (fun _ => false)
    (fun q => decide (q = 0)) (fun i => by show 8 + i ≠ 0; omega)
    (fun q hq => (decide_eq_false hq).symm)
  exact ⟨h.2.1, h.2.2 10 (by decide)⟩

/-- C10: in the controlled-exponentiation loop for N = 15 and a = 7 the
multiplier is 7 ^ (2 ^ j) mod 15, which is 7 exactly when j = 0, is 4 at
j = 1 and is 1 for every j of at least 2; hence the non-barrier branch of
modular_multiplication is taken in exactly one of the n = 2 * ceil_log2 15
loop iterations and every other iteration adds only a barrier. -/
theorem c10_single_nontrivial_iteration :
    (∀ j : Nat, 7 ^ 2 ^ j % 15 = 7 ↔ j = 0)
    ∧ 7 ^ 2 ^ 1 % 15 = 4
    ∧ (∀ j : Nat, 2 ≤ j → 7 ^ 2 ^ j % 15 = 1)
    ∧ ((List.range (2 * ceil_log2 15)).filter (fun j =>
        decide (modular_multiplication j (fun i => 2 * ceil_log2 15 + i)
          (7 ^ 2 ^ j % 15) 15 ≠ [Gate.barrier]))).length = 1
    ∧ ∀ j ∈ List.range (2 * ceil_log2 15), j ≠ 0 →
        modular_multiplication j (fun i => 2 * ceil_log2 15 + i) (7 ^ 2 ^ j % 15) 15
          = [Gate.barrier] := by
  have hge2 : ∀ j : Nat, 2 ≤ j → 7 ^ 2 ^ j % 15 = 1 := by
    intro j hj
    obtain ⟨k, rfl⟩ : ∃ k, j = k + 2 := ⟨j - 2, by omega⟩
    have h4 : (2 : Nat) ^ (k + 2) = 4 * 2 ^ k := by ring
    rw [h4, pow_mul, Nat.pow_mod]
    norm_num
  have hiff : ∀ j : Nat, 7 ^ 2 ^ j % 15 = 7 ↔ j = 0 := by
    intro j
    constructor
    · intro hj
      rcases Nat.lt_or_ge j 2 with h2 | h2
      · interval_cases j
        · rfl
        · exact absurd hj (by decide)
      · rw [hge2 j h2] at hj
        exact absurd hj (by decide)
    · intro hj
      subst hj
      decide
  exact ⟨hiff, by decide, hge2, by decide, by decide⟩

/-- Witness for C10 at j = 0, 1, 2. -/
theorem c10_single_nontrivial_iteration_witness :
    7 ^ 2 ^ 1 % 15 = 4 ∧ 7 ^ 2 ^ 2 % 15 = 1 ∧ (7 ^ 2 ^ 0 % 15 = 7 ↔ (0 : Nat) = 0) :=
  ⟨c10_single_nontrivial_iteration.2.1,
   c10_single_nontrivial_iteration.2.2.1 2 (by decide),
   c10_single_nontrivial_iteration.1 0⟩
